import Mathlib

/-!
Verification of the template substitution engine of the md-handler
repository (`parseTemplateVariables` in `src/file-handler.js`) and of the
shared `ConfigReader` class (`src/config-reader.js`).

The engine implementation file `src/file-handler.js` is not part of the
source tree here; only its unit tests (`test/test-templates.js`) and its
callers are.  The engine is therefore modelled from the specification,
with the documented black-box test cases of `test/test-templates.js`
serving as fixed regression points (in particular the non-uniform
brace-escape behaviour for the sequence of an unescaped closing brace
immediately followed by an escaped closing brace, which the spec records
as documented behaviour).

Texts are modelled as `List Char`; the binding table as an association
list from names to values.
-/

namespace MdHandler

/-- Whitespace characters recognised when trimming placeholder names and
incidental whitespace runs around default values. -/
def isWS (c : Char) : Bool :=
  c = ' ' || c = '\t' || c = '\n' || c = '\r'

/-- Drop the leading whitespace run of a character list. -/
def trimL (cs : List Char) : List Char := cs.dropWhile isWS

/-- Drop the trailing whitespace run of a character list. -/
def trimR (cs : List Char) : List Char := (cs.reverse.dropWhile isWS).reverse

/-- Drop the leading and the trailing whitespace run of a character list. -/
def trimWS (cs : List Char) : List Char := trimR (trimL cs)

/-- Look a name up in the binding table (first match wins). -/
def lookupVar (tbl : List (List Char × List Char)) (k : List Char) :
    Option (List Char) :=
  match tbl with
  | [] => none
  | (k₁, v) :: t => if k₁ = k then some v else lookupVar t k

/-- The failure marker substituted for an unresolvable placeholder:
the HTML fragment `<span class='failed-substitution'>NAME</span>`. -/
def failMarker (n : List Char) : List Char :=
  "<span class=".toList ++ ['\''] ++ "failed-substitution".toList ++ ['\''] ++
    ">".toList ++ n ++ "</span>".toList

/-- Modelled from the spec: the default-part scanner of the missing
`parseTemplateVariables` in `src/file-handler.js`.  Starting after the
first separator bar, it scans for the first valid close delimiter (two
adjacent closing braces neither of which is produced by an escape),
decoding escape sequences (backslash-brace) to literal braces on the way.
Per the documented regression case of `test/test-templates.js`, an
unescaped closing brace immediately followed by an escaped closing brace
decodes to a single closing brace and does not close the span.  Returns
the decoded default text and the input remaining after the close
delimiter, or `none` when no valid close delimiter exists. -/
def scanDef : List Char → Option (List Char × List Char)
  | [] => none
  | [_] => none
  | [c, d] => if c = '}' ∧ d = '}' then some ([], []) else none
  | c :: d :: e :: r₃ =>
    if c = '\\' ∧ (d = '{' ∨ d = '}') then
      (scanDef (e :: r₃)).map (fun p => (d :: p.1, p.2))
    else if c = '}' ∧ d = '}' then
      some ([], e :: r₃)
    else if c = '}' ∧ d = '\\' ∧ e = '}' then
      (scanDef r₃).map (fun p => ('}' :: p.1, p.2))
    else
      (scanDef (d :: e :: r₃)).map (fun p => (c :: p.1, p.2))

/-- Modelled from the spec: the interior scanner of the missing
`parseTemplateVariables` in `src/file-handler.js`.  Starting right after
an open delimiter, it scans for the first valid close delimiter with the
same escape rules as `scanDef`, splitting the interior at the first
separator bar into a name part and an optional default part.  Returns
the decoded name part, the decoded default part when a separator was
present, and the input remaining after the close delimiter; `none` when
no valid close delimiter exists. -/
def scanName : List Char → Option (List Char × Option (List Char) × List Char)
  | [] => none
  | [_] => none
  | [c, d] => if c = '}' ∧ d = '}' then some ([], none, []) else none
  | c :: d :: e :: r₃ =>
    if c = '|' then
      (scanDef (d :: e :: r₃)).map (fun p => ([], some p.1, p.2))
    else if c = '\\' ∧ (d = '{' ∨ d = '}') then
      (scanName (e :: r₃)).map (fun p => (d :: p.1, p.2))
    else if c = '}' ∧ d = '}' then
      some ([], none, e :: r₃)
    else if c = '}' ∧ d = '\\' ∧ e = '}' then
      (scanName r₃).map (fun p => ('}' :: p.1, p.2))
    else
      (scanName (d :: e :: r₃)).map (fun p => (c :: p.1, p.2))

/-- Whether a span interior contains a valid (non-escaped) close
delimiter, following exactly the traversal rules of the span scanners. -/
def hasClose : List Char → Bool
  | [] => false
  | [_] => false
  | [c, d] => if c = '}' ∧ d = '}' then true else false
  | c :: d :: e :: r₃ =>
    if c = '\\' ∧ (d = '{' ∨ d = '}') then hasClose (e :: r₃)
    else if c = '}' ∧ d = '}' then true
    else if c = '}' ∧ d = '\\' ∧ e = '}' then hasClose r₃
    else hasClose (d :: e :: r₃)

/-- Whether a text contains no well-formed placeholder span: every open
delimiter in it (if any) has no later valid close delimiter. -/
def spanFree : List Char → Bool
  | [] => true
  | [_] => true
  | c :: d :: rest =>
    if c = '{' ∧ d = '{' then !(hasClose rest) else spanFree (d :: rest)

/-- Modelled from the spec: the resolver of the missing
`parseTemplateVariables` in `src/file-handler.js`.  Trims the name;
an empty trimmed name renders the failure marker built from the raw name
text.  Otherwise a binding for the trimmed name wins, else a provided
default is used with its leading and trailing incidental whitespace runs
stripped, else the failure marker is substituted and one warning is
recorded for the span. -/
def resolveSpan (tbl : List (List Char × List Char)) (n : List Char)
    (dft : Option (List Char)) : List Char × List (List Char) :=
  if trimWS n = [] then (failMarker n, [n])
  else
    match lookupVar tbl (trimWS n) with
    | some v => (v, [])
    | none =>
      match dft with
      | some dv => (trimWS dv, [])
      | none => (failMarker (trimWS n), [trimWS n])

/-- Modelled from the spec: fuel-indexed single pass of the missing
`parseTemplateVariables` in `src/file-handler.js`.  Walks the input left
to right; at an open delimiter it scans for the first valid close
delimiter, substitutes the resolved span and resumes right after the
close delimiter, while an open delimiter with no valid close is emitted
together with everything following it as literal text.  All other input
passes through unchanged.  Returns the output text and the list of
recorded warnings (one per failed substitution).  The fuel only bounds
recursion depth; input length is always enough fuel. -/
def renderFuel (tbl : List (List Char × List Char)) :
    Nat → List Char → List Char × List (List Char)
  | 0, cs => (cs, [])
  | _ + 1, [] => ([], [])
  | _ + 1, [c] => ([c], [])
  | f + 1, c :: d :: rest =>
    if c = '{' ∧ d = '{' then
      match scanName rest with
      | none => (c :: d :: rest, [])
      | some (n, dft, rest₁) =>
        let r := resolveSpan tbl n dft
        let o := renderFuel tbl f rest₁
        (r.1 ++ o.1, r.2 ++ o.2)
    else
      let o := renderFuel tbl f (d :: rest)
      (c :: o.1, o.2)

/-- Modelled from the spec: the rendering operation of the missing
`parseTemplateVariables` in `src/file-handler.js`, on character lists:
output text together with the recorded warnings. -/
def renderL (tbl : List (List Char × List Char)) (cs : List Char) :
    List Char × List (List Char) :=
  renderFuel tbl cs.length cs

/-- Modelled from the spec: the missing `parseTemplateVariables` of
`src/file-handler.js` as a string-to-string operation. -/
def parseTemplateVariables (tbl : List (List Char × List Char)) (s : String) :
    String :=
  String.mk (renderL tbl s.toList).1

/-- A character that the interior scanners treat as plain text in the
name part: not a backslash, not a closing brace, not the separator bar. -/
abbrev plainN (c : Char) : Prop := c ≠ '\\' ∧ c ≠ '}' ∧ c ≠ '|'

/-- A character that the default-part scanner treats as plain text:
not a backslash and not a closing brace. -/
abbrev plainD (c : Char) : Prop := c ≠ '\\' ∧ c ≠ '}'

/-- A well-formed placeholder name for the purpose of the theorems:
nonempty, made of characters that are plain for the scanners and not
whitespace. -/
abbrev goodName (n : List Char) : Prop :=
  n ≠ [] ∧ ∀ c ∈ n, plainN c ∧ isWS c = false

/-- Whether the last character of a list is neither a backslash nor a
closing brace (used to state that an appended close delimiter does not
interact with the tail of the text before it). -/
def tailOk : List Char → Bool
  | [] => true
  | [c] => if c = '\\' ∨ c = '}' then false else true
  | _ :: b :: l => tailOk (b :: l)

/-- The text of a placeholder span without a default,
`{{ name }}`, followed by a continuation. -/
def mkSpanNoDef (name post : List Char) : List Char :=
  '{' :: '{' :: ((' ' :: name ++ [' ']) ++ '}' :: '}' :: post)

/-- The text of a placeholder span with a default,
`{{ name | default }}`, followed by a continuation. -/
def mkSpanDef (name dft post : List Char) : List Char :=
  '{' :: '{' ::
    ((' ' :: name ++ [' ']) ++ '|' :: ((' ' :: dft ++ [' ']) ++ '}' :: '}' :: post))

/-! ### ConfigReader object model (`src/config-reader.js`)

JavaScript objects are modelled as association lists of string entries; a
heap is a list of objects addressed by index, so that object identity and
in-place mutation are explicit.  `mkConfigReader` is the constructor
(`this.defaults = options.defaults; this.config = { ...this.defaults }`):
it reads the current contents of the defaults object and allocates a
fresh config object holding a copy.  `crGet` is `get(key)`, `crSet` is
`set(key, value)`, and `crGetAll` is `getAll()`, which allocates and
returns a fresh shallow copy of the config object. -/

/-- A JavaScript object: key-value entries, latest entry first. -/
abbrev JObj := List (String × String)

/-- Property read on an object (latest entry wins). -/
def jGet : JObj → String → Option String
  | [], _ => none
  | (k₁, v) :: t, k => if k₁ = k then some v else jGet t k

/-- A heap of objects addressed by allocation index. -/
abbrev JHeap := List JObj

/-- Dereference an object in the heap. -/
def heapGet (h : JHeap) (r : Nat) : JObj := h.getD r []

/-- Mutate the object stored at an address in place. -/
def heapSet (h : JHeap) (r : Nat) (o : JObj) : JHeap := h.set r o

/-- The fields of a `ConfigReader` instance relevant to its configuration
state: the address of its private config object and the address of the
defaults object it was constructed from. -/
structure ConfigReaderState where
  configRef : Nat
  defaultsRef : Nat

/-- The `ConfigReader` constructor: copies the entries of the supplied
defaults object into a freshly allocated config object
(`this.config = { ...this.defaults }`, `src/config-reader.js` line 20). -/
def mkConfigReader (h : JHeap) (defaultsRef : Nat) : JHeap × ConfigReaderState :=
  (h ++ [heapGet h defaultsRef], ⟨List.length h, defaultsRef⟩)

/-- `ConfigReader.get(key)`: reads `this.config[key]`. -/
def crGet (h : JHeap) (s : ConfigReaderState) (k : String) : Option String :=
  jGet (heapGet h s.configRef) k

/-- `ConfigReader.set(key, value)`: writes `this.config[key] = value` in
place. -/
def crSet (h : JHeap) (s : ConfigReaderState) (k v : String) : JHeap :=
  heapSet h s.configRef ((k, v) :: heapGet h s.configRef)

/-- `ConfigReader.getAll()`: allocates and returns a fresh shallow copy
of the config object (`return { ...this.config }`,
`src/config-reader.js` lines 137-139). -/
def crGetAll (h : JHeap) (s : ConfigReaderState) : JHeap × Nat :=
  (h ++ [heapGet h s.configRef], List.length h)

-- Sanity checks on concrete documented test inputs.
example :
    (renderL [("title".toList, "My Document".toList)]
      ('{' :: '{' :: " title ".toList ++ ['}', '}'])).1 = "My Document".toList := by
  decide

example :
    (renderL [] ('{' :: '{' :: " title | Default Title ".toList ++ ['}', '}'])).1 =
      "Default Title".toList := by
  decide

example :
    (renderL []
      ('{' :: '{' :: " code | obj".toList ++
        '}' :: '\\' :: '}' :: " more content ".toList ++
        '}' :: '}' :: " end".toList)).1 =
      "obj".toList ++ '}' :: " more content end".toList := by
  decide

example :
    (renderL []
      ('{' :: '{' :: " code | function() ".toList ++
        '\\' :: '}' :: '}' :: " and more ".toList ++
        '}' :: '}' :: " end".toList)).1 =
      "function() ".toList ++ '}' :: '}' :: " and more end".toList := by
  decide

example :
    (renderL []
      ('{' :: '{' :: " code | function() ".toList ++
        '{' :: " return; ".toList ++ '}' :: ' ' ::
        '}' :: '}' :: " end".toList)).1 =
      "function() ".toList ++ '{' :: " return; ".toList ++ '}' :: " end".toList := by
  decide

example :
    (renderL [] ('{' :: '{' :: " missing ".toList ++ ['}', '}'])).1 =
      failMarker "missing".toList := by
  decide

example :
    (renderL [] ('{' :: '{' :: " empty | ".toList ++ ['}', '}'])).1 = [] := by
  decide

/-! ### Trimming lemmas -/

theorem dropWhile_append_all {p : Char → Bool} {a : List Char}
    (h : ∀ c ∈ a, p c = true) (b : List Char) :
    (a ++ b).dropWhile p = b.dropWhile p := by
  induction a with
  | nil => rfl
  | cons x xs ih =>
    have hx := h x (List.mem_cons_self x xs)
    simp only [List.cons_append, List.dropWhile_cons, hx, if_true]
    exact ih fun c hc => h c (List.mem_cons_of_mem x hc)

theorem trimL_ws_append {lead : List Char} (h : ∀ c ∈ lead, isWS c = true)
    (xs : List Char) : trimL (lead ++ xs) = trimL xs :=
  dropWhile_append_all h xs

theorem trimR_ws_append {trail : List Char} (h : ∀ c ∈ trail, isWS c = true)
    (xs : List Char) : trimR (xs ++ trail) = trimR xs := by
  unfold trimR
  rw [List.reverse_append,
    dropWhile_append_all (fun c hc => h c (List.mem_reverse.mp hc))]

theorem trimL_append_of_ne {xs : List Char} (h : trimL xs ≠ [])
    (t : List Char) : trimL (xs ++ t) = trimL xs ++ t := by
  induction xs with
  | nil => exact absurd rfl h
  | cons x l ih =>
    by_cases hx : isWS x = true
    · simp only [trimL, List.cons_append, List.dropWhile_cons, hx, if_true] at h ⊢
      exact ih h
    · simp only [trimL, List.cons_append, List.dropWhile_cons, hx, if_false,
        Bool.false_eq_true]

theorem trimL_of_head {x : Char} (hx : isWS x = false) (l : List Char) :
    trimL (x :: l) = x :: l := by
  simp [trimL, List.dropWhile_cons, hx]

theorem trimL_of_noWS {cs : List Char} (h : ∀ c ∈ cs, isWS c = false) :
    trimL cs = cs := by
  cases cs with
  | nil => rfl
  | cons x l => exact trimL_of_head (h x (List.mem_cons_self x l)) l

theorem trimR_of_noWS {cs : List Char} (h : ∀ c ∈ cs, isWS c = false) :
    trimR cs = cs := by
  unfold trimR
  rw [show List.dropWhile isWS cs.reverse = cs.reverse from
    trimL_of_noWS fun c hc => h c (List.mem_reverse.mp hc),
    List.reverse_reverse]

theorem trimWS_of_noWS {cs : List Char} (h : ∀ c ∈ cs, isWS c = false) :
    trimWS cs = cs := by
  unfold trimWS
  rw [trimL_of_noWS h, trimR_of_noWS h]

theorem trimWS_wrap {lead trail : List Char} (hl : ∀ c ∈ lead, isWS c = true)
    (ht : ∀ c ∈ trail, isWS c = true) (core : List Char) :
    trimWS (lead ++ core ++ trail) = trimWS core := by
  unfold trimWS
  rw [List.append_assoc, trimL_ws_append hl]
  by_cases hc : trimL core = []
  · have hcore : ∀ c ∈ core, isWS c = true := by
      intro c h₁
      exact List.dropWhile_eq_nil_iff.mp hc c h₁
    rw [trimL_ws_append hcore, hc]
    have : trimL trail = [] := List.dropWhile_eq_nil_iff.mpr fun c h₁ => ht c h₁
    rw [this]
  · rw [trimL_append_of_ne hc, trimR_ws_append ht]

/-! ### Scanner reduction lemmas -/

theorem scanDef_cons_plain {c : Char} (h1 : c ≠ '\\') (h2 : c ≠ '}')
    (xs : List Char) :
    scanDef (c :: xs) = (scanDef xs).map (fun p => (c :: p.1, p.2)) := by
  match xs with
  | [] => rfl
  | [d] =>
    simp only [scanDef]
    rw [if_neg (fun hh => h2 hh.1)]
    rfl
  | d :: e :: r =>
    simp only [scanDef]
    rw [if_neg (fun hh => h1 hh.1), if_neg (fun hh => h2 hh.1),
      if_neg (fun hh => h2 hh.1)]

theorem scanDef_append_plain {pre : List Char} (h : ∀ c ∈ pre, plainD c)
    (xs : List Char) :
    scanDef (pre ++ xs) = (scanDef xs).map (fun p => (pre ++ p.1, p.2)) := by
  induction pre with
  | nil =>
    simp only [List.nil_append]
    cases scanDef xs <;> rfl
  | cons x pre₁ ih =>
    have hx := h x (List.mem_cons_self x pre₁)
    rw [List.cons_append, scanDef_cons_plain hx.1 hx.2,
      ih fun c hc => h c (List.mem_cons_of_mem x hc)]
    cases scanDef xs <;> rfl

theorem scanDef_close (rest : List Char) :
    scanDef ('}' :: '}' :: rest) = some ([], rest) := by
  cases rest with
  | nil => rfl
  | cons e r =>
    simp only [scanDef]
    rw [if_neg (by decide), if_pos (by trivial)]

theorem scanDef_escape {d : Char} (hd : d = '{' ∨ d = '}') (rest : List Char) :
    scanDef ('\\' :: d :: rest) = (scanDef rest).map (fun p => (d :: p.1, p.2)) := by
  cases rest with
  | nil =>
    simp only [scanDef]
    rw [if_neg (by rintro ⟨h, -⟩; exact absurd h (by decide))]
    rfl
  | cons e r =>
    simp only [scanDef]
    rw [if_pos ⟨by trivial, hd⟩]

theorem scanDef_bracePair (rest : List Char) :
    scanDef ('}' :: '\\' :: '}' :: rest) =
      (scanDef rest).map (fun p => ('}' :: p.1, p.2)) := by
  simp only [scanDef]
  rw [if_neg (by decide), if_neg (by decide), if_pos (by trivial)]

theorem scanName_cons_plain {c : Char} (h0 : c ≠ '|') (h1 : c ≠ '\\')
    (h2 : c ≠ '}') (xs : List Char) :
    scanName (c :: xs) = (scanName xs).map (fun p => (c :: p.1, p.2)) := by
  match xs with
  | [] => rfl
  | [d] =>
    simp only [scanName]
    rw [if_neg (fun hh => h2 hh.1)]
    rfl
  | d :: e :: r =>
    simp only [scanName]
    rw [if_neg h0, if_neg (fun hh => h1 hh.1), if_neg (fun hh => h2 hh.1),
      if_neg (fun hh => h2 hh.1)]

theorem scanName_append_plain {pre : List Char}
    (h : ∀ c ∈ pre, plainN c) (xs : List Char) :
    scanName (pre ++ xs) = (scanName xs).map (fun p => (pre ++ p.1, p.2)) := by
  induction pre with
  | nil =>
    simp only [List.nil_append]
    cases scanName xs <;> rfl
  | cons x pre₁ ih =>
    have hx := h x (List.mem_cons_self x pre₁)
    rw [List.cons_append, scanName_cons_plain hx.2.2 hx.1 hx.2.1,
      ih fun c hc => h c (List.mem_cons_of_mem x hc)]
    cases scanName xs <;> rfl

theorem scanName_close (rest : List Char) :
    scanName ('}' :: '}' :: rest) = some ([], none, rest) := by
  cases rest with
  | nil => rfl
  | cons e r =>
    simp only [scanName]
    rw [if_neg (by decide), if_neg (by decide), if_pos (by trivial)]

theorem scanName_escape {d : Char} (hd : d = '{' ∨ d = '}') (rest : List Char) :
    scanName ('\\' :: d :: rest) = (scanName rest).map (fun p => (d :: p.1, p.2)) := by
  cases rest with
  | nil =>
    simp only [scanName]
    rw [if_neg (by rintro ⟨h, -⟩; exact absurd h (by decide))]
    rfl
  | cons e r =>
    simp only [scanName]
    rw [if_neg (by decide), if_pos ⟨by trivial, hd⟩]

theorem scanName_bracePair (rest : List Char) :
    scanName ('}' :: '\\' :: '}' :: rest) =
      (scanName rest).map (fun p => ('}' :: p.1, p.2)) := by
  simp only [scanName]
  rw [if_neg (by decide), if_neg (by decide), if_neg (by decide), if_pos (by trivial)]

theorem scanName_pipe (xs : List Char) :
    scanName ('|' :: xs) = (scanDef xs).map (fun p => ([], some p.1, p.2)) := by
  match xs with
  | [] => rfl
  | [d] =>
    simp only [scanName, scanDef]
    rw [if_neg (fun hh => absurd hh.1 (by decide))]
    rfl
  | d :: e :: r =>
    simp only [scanName]
    rw [if_pos (by trivial)]

/-! ### Length and fuel lemmas -/

theorem scanDef_length : ∀ (cs : List Char) (p : List Char × List Char),
    scanDef cs = some p → p.2.length + 2 ≤ cs.length := by
  intro cs
  induction cs using scanDef.induct with
  | case1 => intro p h; simp [scanDef] at h
  | case2 c => intro p h; simp [scanDef] at h
  | case3 c d hcd =>
    intro p h
    simp only [scanDef, if_pos hcd] at h
    obtain rfl : ([], ([] : List Char)) = p := Option.some.inj h
    simp
  | case4 c d hcd =>
    intro p h
    rw [show scanDef [c, d] = none by simp only [scanDef, if_neg hcd]] at h
    exact absurd h (by simp)
  | case5 c d e r₃ hcd ih =>
    intro p h
    simp only [scanDef, if_pos hcd, Option.map_eq_some'] at h
    obtain ⟨a, ha, rfl⟩ := h
    have := ih a ha
    simp only [List.length_cons] at this ⊢
    omega
  | case6 c d e r₃ h1 h2 =>
    intro p h
    simp only [scanDef, if_neg h1, if_pos h2] at h
    obtain rfl : ([], e :: r₃) = p := Option.some.inj h
    simp only [List.length_cons]
    omega
  | case7 c d e r₃ h1 h2 h3 ih =>
    intro p h
    simp only [scanDef, if_neg h1, if_neg h2, if_pos h3, Option.map_eq_some'] at h
    obtain ⟨a, ha, rfl⟩ := h
    have := ih a ha
    simp only [List.length_cons] at this ⊢
    omega
  | case8 c d e r₃ h1 h2 h3 ih =>
    intro p h
    simp only [scanDef, if_neg h1, if_neg h2, if_neg h3, Option.map_eq_some'] at h
    obtain ⟨a, ha, rfl⟩ := h
    have := ih a ha
    simp only [List.length_cons] at this ⊢
    omega

theorem scanName_length : ∀ (cs : List Char)
    (p : List Char × Option (List Char) × List Char),
    scanName cs = some p → p.2.2.length + 2 ≤ cs.length := by
  intro cs
  induction cs using scanName.induct with
  | case1 => intro p h; simp [scanName] at h
  | case2 c => intro p h; simp [scanName] at h
  | case3 c d hcd =>
    intro p h
    simp only [scanName, if_pos hcd] at h
    obtain rfl : (([] : List Char), (none : Option (List Char)), ([] : List Char)) = p :=
      Option.some.inj h
    simp
  | case4 c d hcd =>
    intro p h
    rw [show scanName [c, d] = none by simp only [scanName, if_neg hcd]] at h
    exact absurd h (by simp)
  | case5 d e r₃ =>
    intro p h
    rw [scanName_pipe, Option.map_eq_some'] at h
    obtain ⟨a, ha, rfl⟩ := h
    have := scanDef_length (d :: e :: r₃) a ha
    simp only [List.length_cons] at this ⊢
    omega
  | case6 c d e r₃ h0 hcd ih =>
    intro p h
    simp only [scanName, if_neg h0, if_pos hcd, Option.map_eq_some'] at h
    obtain ⟨a, ha, rfl⟩ := h
    have := ih a ha
    simp only [List.length_cons] at this ⊢
    omega
  | case7 c d e r₃ h0 h1 h2 =>
    intro p h
    simp only [scanName, if_neg h0, if_neg h1, if_pos h2] at h
    obtain rfl : (([] : List Char), (none : Option (List Char)), e :: r₃) = p :=
      Option.some.inj h
    simp only [List.length_cons]
    omega
  | case8 c d e r₃ h0 h1 h2 h3 ih =>
    intro p h
    simp only [scanName, if_neg h0, if_neg h1, if_neg h2, if_pos h3,
      Option.map_eq_some'] at h
    obtain ⟨a, ha, rfl⟩ := h
    have := ih a ha
    simp only [List.length_cons] at this ⊢
    omega
  | case9 c d e r₃ h0 h1 h2 h3 ih =>
    intro p h
    simp only [scanName, if_neg h0, if_neg h1, if_neg h2, if_neg h3,
      Option.map_eq_some'] at h
    obtain ⟨a, ha, rfl⟩ := h
    have := ih a ha
    simp only [List.length_cons] at this ⊢
    omega

theorem renderFuel_irrel (tbl : List (List Char × List Char)) :
    ∀ (f g : Nat) (cs : List Char), cs.length ≤ f → cs.length ≤ g →
    renderFuel tbl f cs = renderFuel tbl g cs := by
  intro f
  induction f with
  | zero =>
    intro g cs h1 _
    have hcs : cs = [] := List.eq_nil_of_length_eq_zero (Nat.le_zero.mp h1)
    subst hcs
    cases g <;> rfl
  | succ f ih =>
    intro g cs h1 h2
    cases cs with
    | nil => cases g <;> rfl
    | cons c cs₁ =>
      cases cs₁ with
      | nil =>
        cases g with
        | zero => simp at h2
        | succ g => rfl
      | cons d rest =>
        cases g with
        | zero => simp at h2
        | succ g =>
          simp only [List.length_cons] at h1 h2
          simp only [renderFuel]
          by_cases hod : c = '{' ∧ d = '{'
          · rw [if_pos hod, if_pos hod]
            cases hsn : scanName rest with
            | none => rfl
            | some t =>
              obtain ⟨n, dft, rest₁⟩ := t
              have hlen := scanName_length rest (n, dft, rest₁) hsn
              simp only [List.length_cons] at hlen
              dsimp only
              rw [ih g rest₁ (by omega) (by omega)]
          · rw [if_neg hod, if_neg hod,
              ih g (d :: rest) (by simp only [List.length_cons]; omega)
                (by simp only [List.length_cons]; omega)]

theorem renderL_nil (tbl : List (List Char × List Char)) :
    renderL tbl [] = ([], []) := rfl

theorem renderL_single (tbl : List (List Char × List Char)) (c : Char) :
    renderL tbl [c] = ([c], []) := rfl

theorem renderL_cons_noOpen {c d : Char} (h : ¬(c = '{' ∧ d = '{'))
    (tbl : List (List Char × List Char)) (rest : List Char) :
    renderL tbl (c :: d :: rest) =
      (c :: (renderL tbl (d :: rest)).1, (renderL tbl (d :: rest)).2) := by
  show renderFuel tbl (c :: d :: rest).length (c :: d :: rest) = _
  simp only [List.length_cons]
  simp only [renderFuel]
  rw [if_neg h]
  rfl

theorem renderL_open_none {rest : List Char} (h : scanName rest = none)
    (tbl : List (List Char × List Char)) :
    renderL tbl ('{' :: '{' :: rest) = ('{' :: '{' :: rest, []) := by
  show renderFuel tbl ('{' :: '{' :: rest).length ('{' :: '{' :: rest) = _
  simp only [List.length_cons]
  simp only [renderFuel]
  rw [if_pos ⟨by trivial, by trivial⟩, h]

theorem renderL_open_some {rest n : List Char} {dft : Option (List Char)}
    {rest₁ : List Char} (h : scanName rest = some (n, dft, rest₁))
    (tbl : List (List Char × List Char)) :
    renderL tbl ('{' :: '{' :: rest) =
      ((resolveSpan tbl n dft).1 ++ (renderL tbl rest₁).1,
        (resolveSpan tbl n dft).2 ++ (renderL tbl rest₁).2) := by
  have hlen := scanName_length rest (n, dft, rest₁) h
  simp only [List.length_cons] at hlen
  show renderFuel tbl ('{' :: '{' :: rest).length ('{' :: '{' :: rest) = _
  simp only [List.length_cons]
  simp only [renderFuel]
  rw [if_pos ⟨by trivial, by trivial⟩, h]
  dsimp only
  rw [renderFuel_irrel tbl (rest.length + 1) rest₁.length rest₁ (by omega) le_rfl]
  rfl

/-! ### Valid-close characterisation -/

theorem scanDef_isSome : ∀ cs : List Char, (scanDef cs).isSome = hasClose cs := by
  intro cs
  induction cs using scanDef.induct with
  | case1 => rfl
  | case2 c => rfl
  | case3 c d hcd => simp only [scanDef, hasClose, if_pos hcd, Option.isSome_some]
  | case4 c d hcd => simp only [scanDef, hasClose, if_neg hcd, Option.isSome_none]
  | case5 c d e r₃ hcd ih =>
    simp only [scanDef, hasClose, if_pos hcd]
    cases hs : scanDef (e :: r₃) with
    | none => rw [hs] at ih; exact ih
    | some a => rw [hs] at ih; exact ih
  | case6 c d e r₃ h1 h2 =>
    simp only [scanDef, hasClose, if_neg h1, if_pos h2, Option.isSome_some]
  | case7 c d e r₃ h1 h2 h3 ih =>
    simp only [scanDef, hasClose, if_neg h1, if_neg h2, if_pos h3]
    cases hs : scanDef r₃ with
    | none => rw [hs] at ih; exact ih
    | some a => rw [hs] at ih; exact ih
  | case8 c d e r₃ h1 h2 h3 ih =>
    simp only [scanDef, hasClose, if_neg h1, if_neg h2, if_neg h3]
    cases hs : scanDef (d :: e :: r₃) with
    | none => rw [hs] at ih; exact ih
    | some a => rw [hs] at ih; exact ih

theorem scanName_isSome : ∀ cs : List Char, (scanName cs).isSome = hasClose cs := by
  intro cs
  induction cs using scanName.induct with
  | case1 => rfl
  | case2 c => rfl
  | case3 c d hcd => simp only [scanName, hasClose, if_pos hcd, Option.isSome_some]
  | case4 c d hcd => simp only [scanName, hasClose, if_neg hcd, Option.isSome_none]
  | case5 d e r₃ =>
    rw [scanName_pipe]
    have h₁ : hasClose ('|' :: d :: e :: r₃) = hasClose (d :: e :: r₃) := by
      rw [hasClose.eq_4,
        if_neg (show ¬(('|' : Char) = '\\' ∧ (d = '{' ∨ d = '}')) from
          fun hh => absurd hh.1 (by decide)),
        if_neg (show ¬(('|' : Char) = '}' ∧ d = '}') from
          fun hh => absurd hh.1 (by decide)),
        if_neg (show ¬(('|' : Char) = '}' ∧ d = '\\' ∧ e = '}') from
          fun hh => absurd hh.1 (by decide))]
    rw [h₁, ← scanDef_isSome]
    cases scanDef (d :: e :: r₃) <;> rfl
  | case6 c d e r₃ h0 hcd ih =>
    simp only [scanName, hasClose, if_neg h0, if_pos hcd]
    cases hs : scanName (e :: r₃) with
    | none => rw [hs] at ih; exact ih
    | some a => rw [hs] at ih; exact ih
  | case7 c d e r₃ h0 h1 h2 =>
    simp only [scanName, hasClose, if_neg h0, if_neg h1, if_pos h2, Option.isSome_some]
  | case8 c d e r₃ h0 h1 h2 h3 ih =>
    simp only [scanName, hasClose, if_neg h0, if_neg h1, if_neg h2, if_pos h3]
    cases hs : scanName r₃ with
    | none => rw [hs] at ih; exact ih
    | some a => rw [hs] at ih; exact ih
  | case9 c d e r₃ h0 h1 h2 h3 ih =>
    simp only [scanName, hasClose, if_neg h0, if_neg h1, if_neg h2, if_neg h3]
    cases hs : scanName (d :: e :: r₃) with
    | none => rw [hs] at ih; exact ih
    | some a => rw [hs] at ih; exact ih

theorem scanName_none_of_noClose {cs : List Char} (h : hasClose cs = false) :
    scanName cs = none := by
  have := scanName_isSome cs
  rw [h] at this
  exact Option.not_isSome_iff_eq_none.mp (by rw [this]; exact Bool.false_ne_true)

theorem tailOk_single {c : Char} (h : tailOk [c] = true) : c ≠ '\\' ∧ c ≠ '}' := by
  by_cases hc : c = '\\' ∨ c = '}'
  · rw [tailOk, if_pos hc] at h
    exact absurd h (by decide)
  · exact ⟨fun h₁ => hc (Or.inl h₁), fun h₁ => hc (Or.inr h₁)⟩

theorem scanDef_cons_safe {c d : Char} (h : ¬(c = '\\' ∧ (d = '{' ∨ d = '}')))
    (h2 : ¬(c = '}' ∧ d = '}')) (h3 : ¬(c = '}' ∧ d = '\\')) :
    ∀ xs : List Char,
      scanDef (c :: d :: xs) = (scanDef (d :: xs)).map (fun p => (c :: p.1, p.2)) := by
  intro xs
  cases xs with
  | nil => rw [scanDef.eq_3, if_neg h2, scanDef.eq_2]; rfl
  | cons e xs₁ =>
    rw [scanDef.eq_4, if_neg h, if_neg h2, if_neg (fun hh => h3 ⟨hh.1, hh.2.1⟩)]

theorem scanName_cons_safe {c d : Char} (h0 : c ≠ '|')
    (h : ¬(c = '\\' ∧ (d = '{' ∨ d = '}'))) (h2 : ¬(c = '}' ∧ d = '}'))
    (h3 : ¬(c = '}' ∧ d = '\\')) :
    ∀ xs : List Char,
      scanName (c :: d :: xs) = (scanName (d :: xs)).map (fun p => (c :: p.1, p.2)) := by
  intro xs
  cases xs with
  | nil => rw [scanName.eq_3, if_neg h2, scanName.eq_2]; rfl
  | cons e xs₁ =>
    rw [scanName.eq_4, if_neg h0, if_neg h, if_neg h2,
      if_neg (fun hh => h3 ⟨hh.1, hh.2.1⟩)]

theorem scanDef_extend : ∀ mid : List Char, hasClose mid = false → tailOk mid = true →
    ∃ dd : List Char, ∀ rest : List Char,
      scanDef (mid ++ '}' :: '}' :: rest) = some (dd, rest) := by
  intro mid
  induction mid using scanDef.induct with
  | case1 =>
    intro _ _
    exact ⟨[], fun rest => scanDef_close rest⟩
  | case2 c =>
    intro _ ht
    obtain ⟨h1, h2⟩ := tailOk_single ht
    refine ⟨[c], fun rest => ?_⟩
    rw [List.singleton_append, scanDef_cons_plain h1 h2, scanDef_close]
    rfl
  | case3 c d hcd =>
    intro hc _
    rw [hasClose.eq_3, if_pos hcd] at hc
    exact absurd hc (by decide)
  | case4 c d hcd =>
    intro _ ht
    obtain ⟨hd1, hd2⟩ := tailOk_single (show tailOk [d] = true from ht)
    by_cases hesc : c = '\\' ∧ (d = '{' ∨ d = '}')
    · obtain ⟨rfl, hd⟩ := hesc
      refine ⟨[d], fun rest => ?_⟩
      show scanDef ('\\' :: d :: '}' :: '}' :: rest) = _
      rw [scanDef_escape hd, scanDef_close]
      rfl
    · refine ⟨[c, d], fun rest => ?_⟩
      show scanDef (c :: d :: '}' :: '}' :: rest) = _
      rw [scanDef_cons_safe hesc hcd (fun hh => hd1 hh.2),
        scanDef_cons_safe (fun hh => hd1 hh.1) (fun hh => hd2 hh.1)
          (fun hh => hd2 hh.1),
        scanDef_close]
      rfl
  | case5 c d e r₃ hcd ih =>
    intro hc ht
    rw [hasClose.eq_4, if_pos hcd] at hc
    obtain ⟨dd, hdd⟩ := ih hc (show tailOk (e :: r₃) = true from ht)
    obtain ⟨rfl, hd⟩ := hcd
    refine ⟨d :: dd, fun rest => ?_⟩
    show scanDef ('\\' :: d :: ((e :: r₃) ++ '}' :: '}' :: rest)) = _
    rw [scanDef_escape hd, hdd rest]
    rfl
  | case6 c d e r₃ h1 h2 =>
    intro hc _
    rw [hasClose.eq_4, if_neg h1, if_pos h2] at hc
    exact absurd hc (by decide)
  | case7 c d e r₃ h1 h2 h3 ih =>
    intro hc ht
    rw [hasClose.eq_4, if_neg h1, if_neg h2, if_pos h3] at hc
    have ht₃ : tailOk r₃ = true := by
      cases r₃ with
      | nil =>
        obtain ⟨-, -, rfl⟩ := h3
        rw [show tailOk (c :: d :: '}' :: []) = false from rfl] at ht
        exact absurd ht (by decide)
      | cons x xs => exact ht
    obtain ⟨dd, hdd⟩ := ih hc ht₃
    obtain ⟨rfl, rfl, rfl⟩ := h3
    refine ⟨'}' :: dd, fun rest => ?_⟩
    show scanDef ('}' :: '\\' :: '}' :: (r₃ ++ '}' :: '}' :: rest)) = _
    rw [scanDef_bracePair, hdd rest]
    rfl
  | case8 c d e r₃ h1 h2 h3 ih =>
    intro hc ht
    rw [hasClose.eq_4, if_neg h1, if_neg h2, if_neg h3] at hc
    obtain ⟨dd, hdd⟩ := ih hc ht
    refine ⟨c :: dd, fun rest => ?_⟩
    show scanDef (c :: d :: e :: (r₃ ++ '}' :: '}' :: rest)) = _
    rw [scanDef.eq_4, if_neg h1, if_neg h2, if_neg h3,
      show d :: e :: (r₃ ++ '}' :: '}' :: rest) =
        (d :: e :: r₃) ++ '}' :: '}' :: rest from rfl,
      hdd rest]
    rfl

theorem scanName_extend : ∀ mid : List Char, hasClose mid = false → tailOk mid = true →
    ∃ (n : List Char) (dft : Option (List Char)), ∀ rest : List Char,
      scanName (mid ++ '}' :: '}' :: rest) = some (n, dft, rest) := by
  intro mid
  induction mid using scanName.induct with
  | case1 =>
    intro _ _
    exact ⟨[], none, fun rest => scanName_close rest⟩
  | case2 c =>
    intro _ ht
    obtain ⟨h1, h2⟩ := tailOk_single ht
    by_cases h0 : c = '|'
    · refine ⟨[], some [], fun rest => ?_⟩
      subst h0
      rw [List.singleton_append, scanName_pipe, scanDef_close]
      rfl
    · refine ⟨[c], none, fun rest => ?_⟩
      rw [List.singleton_append, scanName_cons_plain h0 h1 h2, scanName_close]
      rfl
  | case3 c d hcd =>
    intro hc _
    rw [hasClose.eq_3, if_pos hcd] at hc
    exact absurd hc (by decide)
  | case4 c d hcd =>
    intro _ ht
    obtain ⟨hd1, hd2⟩ := tailOk_single (show tailOk [d] = true from ht)
    by_cases h0 : c = '|'
    · subst h0
      refine ⟨[], some [d], fun rest => ?_⟩
      show scanName ('|' :: d :: '}' :: '}' :: rest) = _
      rw [scanName_pipe, scanDef_cons_plain hd1 hd2, scanDef_close]
      rfl
    · by_cases hesc : c = '\\' ∧ (d = '{' ∨ d = '}')
      · obtain ⟨rfl, hd⟩ := hesc
        refine ⟨[d], none, fun rest => ?_⟩
        show scanName ('\\' :: d :: '}' :: '}' :: rest) = _
        rw [scanName_escape hd, scanName_close]
        rfl
      · by_cases hdp : d = '|'
        · subst hdp
          refine ⟨[c], some [], fun rest => ?_⟩
          show scanName (c :: '|' :: '}' :: '}' :: rest) = _
          rw [scanName_cons_safe h0 hesc hcd (fun hh => absurd hh.2 (by decide)),
            scanName_pipe, scanDef_close]
          rfl
        · refine ⟨[c, d], none, fun rest => ?_⟩
          show scanName (c :: d :: '}' :: '}' :: rest) = _
          rw [scanName_cons_safe h0 hesc hcd (fun hh => hd1 hh.2),
            scanName_cons_safe hdp (fun hh => hd1 hh.1) (fun hh => hd2 hh.1)
              (fun hh => hd2 hh.1),
            scanName_close]
          rfl
  | case5 d e r₃ =>
    intro hc ht
    have h₁ : hasClose (d :: e :: r₃) = false := by
      rw [hasClose.eq_4,
        if_neg (show ¬(('|' : Char) = '\\' ∧ (d = '{' ∨ d = '}')) from
          fun hh => absurd hh.1 (by decide)),
        if_neg (show ¬(('|' : Char) = '}' ∧ d = '}') from
          fun hh => absurd hh.1 (by decide)),
        if_neg (show ¬(('|' : Char) = '}' ∧ d = '\\' ∧ e = '}') from
          fun hh => absurd hh.1 (by decide))] at hc
      exact hc
    obtain ⟨dd, hdd⟩ := scanDef_extend (d :: e :: r₃) h₁ ht
    refine ⟨[], some dd, fun rest => ?_⟩
    show scanName ('|' :: ((d :: e :: r₃) ++ '}' :: '}' :: rest)) = _
    rw [scanName_pipe, hdd rest]
    rfl
  | case6 c d e r₃ h0 hcd ih =>
    intro hc ht
    rw [hasClose.eq_4, if_pos hcd] at hc
    obtain ⟨n, dft, hdd⟩ := ih hc (show tailOk (e :: r₃) = true from ht)
    obtain ⟨rfl, hd⟩ := hcd
    refine ⟨d :: n, dft, fun rest => ?_⟩
    show scanName ('\\' :: d :: ((e :: r₃) ++ '}' :: '}' :: rest)) = _
    rw [scanName_escape hd, hdd rest]
    rfl
  | case7 c d e r₃ h0 h1 h2 =>
    intro hc _
    rw [hasClose.eq_4, if_neg h1, if_pos h2] at hc
    exact absurd hc (by decide)
  | case8 c d e r₃ h0 h1 h2 h3 ih =>
    intro hc ht
    rw [hasClose.eq_4, if_neg h1, if_neg h2, if_pos h3] at hc
    have ht₃ : tailOk r₃ = true := by
      cases r₃ with
      | nil =>
        obtain ⟨-, -, rfl⟩ := h3
        rw [show tailOk (c :: d :: '}' :: []) = false from rfl] at ht
        exact absurd ht (by decide)
      | cons x xs => exact ht
    obtain ⟨n, dft, hdd⟩ := ih hc ht₃
    obtain ⟨rfl, rfl, rfl⟩ := h3
    refine ⟨'}' :: n, dft, fun rest => ?_⟩
    show scanName ('}' :: '\\' :: '}' :: (r₃ ++ '}' :: '}' :: rest)) = _
    rw [scanName_bracePair, hdd rest]
    rfl
  | case9 c d e r₃ h0 h1 h2 h3 ih =>
    intro hc ht
    rw [hasClose.eq_4, if_neg h1, if_neg h2, if_neg h3] at hc
    obtain ⟨n, dft, hdd⟩ := ih hc ht
    refine ⟨c :: n, dft, fun rest => ?_⟩
    show scanName (c :: d :: e :: (r₃ ++ '}' :: '}' :: rest)) = _
    rw [scanName.eq_4, if_neg h0, if_neg h1, if_neg h2, if_neg h3,
      show d :: e :: (r₃ ++ '}' :: '}' :: rest) =
        (d :: e :: r₃) ++ '}' :: '}' :: rest from rfl,
      hdd rest]
    rfl

/-! ### Rendering lemmas -/

theorem renderL_cons_notBrace {c : Char} (h : c ≠ '{')
    (tbl : List (List Char × List Char)) (ys : List Char) :
    renderL tbl (c :: ys) = (c :: (renderL tbl ys).1, (renderL tbl ys).2) := by
  cases ys with
  | nil => rfl
  | cons d rest => exact renderL_cons_noOpen (fun hh => h hh.1) tbl rest

theorem renderL_plainPre {pre : List Char} (h : ∀ c ∈ pre, c ≠ '{')
    (tbl : List (List Char × List Char)) (xs : List Char) :
    renderL tbl (pre ++ xs) = (pre ++ (renderL tbl xs).1, (renderL tbl xs).2) := by
  induction pre with
  | nil => simp only [List.nil_append]
  | cons p pre₁ ih =>
    rw [List.cons_append, renderL_cons_notBrace (h p (List.mem_cons_self p pre₁)),
      ih fun c hc => h c (List.mem_cons_of_mem p hc)]
    rfl

theorem renderL_spanFree : ∀ cs : List Char, spanFree cs = true →
    ∀ tbl : List (List Char × List Char), renderL tbl cs = (cs, []) := by
  intro cs
  induction cs using spanFree.induct with
  | case1 => intro _ tbl; rfl
  | case2 c => intro _ tbl; rfl
  | case3 c d rest hod =>
    intro h tbl
    rw [spanFree.eq_3, if_pos hod] at h
    have hcf : hasClose rest = false := by
      cases hcl : hasClose rest with
      | false => rfl
      | true => rw [hcl] at h; exact absurd h (by decide)
    obtain ⟨rfl, rfl⟩ := hod
    exact renderL_open_none (scanName_none_of_noClose hcf) tbl
  | case4 c d rest hod ih =>
    intro h tbl
    rw [spanFree.eq_3, if_neg hod] at h
    rw [renderL_cons_noOpen hod, ih h tbl]

/-! ### Binding-table extensionality -/

theorem resolveSpan_ext {b₁ b₂ : List (List Char × List Char)}
    (h : ∀ k, lookupVar b₁ k = lookupVar b₂ k) (n : List Char)
    (dft : Option (List Char)) : resolveSpan b₁ n dft = resolveSpan b₂ n dft := by
  unfold resolveSpan
  rw [h (trimWS n)]

theorem renderFuel_ext {b₁ b₂ : List (List Char × List Char)}
    (h : ∀ k, lookupVar b₁ k = lookupVar b₂ k) :
    ∀ (f : Nat) (cs : List Char), renderFuel b₁ f cs = renderFuel b₂ f cs := by
  intro f
  induction f with
  | zero => intro cs; rfl
  | succ f ih =>
    intro cs
    match cs with
    | [] => rfl
    | [c] => rfl
    | c :: d :: rest =>
      simp only [renderFuel]
      by_cases hod : c = '{' ∧ d = '{'
      · rw [if_pos hod, if_pos hod]
        cases hsn : scanName rest with
        | none => rfl
        | some t =>
          obtain ⟨n, dft, rest₁⟩ := t
          dsimp only
          rw [resolveSpan_ext h, ih rest₁]
      · rw [if_neg hod, if_neg hod, ih (d :: rest)]

theorem renderL_ext {b₁ b₂ : List (List Char × List Char)}
    (h : ∀ k, lookupVar b₁ k = lookupVar b₂ k) (cs : List Char) :
    renderL b₁ cs = renderL b₂ cs :=
  renderFuel_ext h cs.length cs

/-! ### Span evaluation lemmas -/

theorem isWS_plainD {c : Char} (h : isWS c = true) : plainD c := by
  have h₁ : ((c = ' ' ∨ c = '\t') ∨ c = '\n') ∨ c = '\r' := by
    simpa [isWS] using h
  rcases h₁ with ((rfl | rfl) | rfl) | rfl <;> exact ⟨by decide, by decide⟩

theorem plainN_space : plainN ' ' := ⟨by decide, by decide, by decide⟩

theorem plainD_space : plainD ' ' := ⟨by decide, by decide⟩

theorem plain_wrap_N {name : List Char} (hn : ∀ c ∈ name, plainN c) :
    ∀ c ∈ ' ' :: name ++ [' '], plainN c := by
  intro c hc
  rcases List.mem_cons.mp hc with rfl | hc₁
  · exact plainN_space
  rcases List.mem_append.mp hc₁ with hc₂ | hc₂
  · exact hn c hc₂
  · obtain rfl := List.mem_singleton.mp hc₂
    exact plainN_space

theorem plain_wrap_D {dflt : List Char} (hd : ∀ c ∈ dflt, plainD c) :
    ∀ c ∈ ' ' :: dflt ++ [' '], plainD c := by
  intro c hc
  rcases List.mem_cons.mp hc with rfl | hc₁
  · exact plainD_space
  rcases List.mem_append.mp hc₁ with hc₂ | hc₂
  · exact hd c hc₂
  · obtain rfl := List.mem_singleton.mp hc₂
    exact plainD_space

theorem trimWS_wrap_core {core : List Char} (h : ∀ c ∈ core, isWS c = false) :
    trimWS (' ' :: core ++ [' ']) = core := by
  have h₁ := @trimWS_wrap [' '] [' ']
    (by intro c hc; obtain rfl := List.mem_singleton.mp hc; rfl)
    (by intro c hc; obtain rfl := List.mem_singleton.mp hc; rfl) core
  rw [show ' ' :: core ++ [' '] = [' '] ++ core ++ [' '] from rfl, h₁,
    trimWS_of_noWS h]

theorem trimWS_wrap_any (core : List Char) :
    trimWS (' ' :: core ++ [' ']) = trimWS core := by
  have h₁ := @trimWS_wrap [' '] [' ']
    (by intro c hc; obtain rfl := List.mem_singleton.mp hc; rfl)
    (by intro c hc; obtain rfl := List.mem_singleton.mp hc; rfl) core
  rw [show ' ' :: core ++ [' '] = [' '] ++ core ++ [' '] from rfl, h₁]

theorem scanName_span1 {name : List Char} (hn : ∀ c ∈ name, plainN c)
    (post : List Char) :
    scanName ((' ' :: name ++ [' ']) ++ '}' :: '}' :: post) =
      some (' ' :: name ++ [' '], none, post) := by
  rw [scanName_append_plain (plain_wrap_N hn), scanName_close]
  simp

theorem scanName_span2 {name dflt : List Char} (hn : ∀ c ∈ name, plainN c)
    (hd : ∀ c ∈ dflt, plainD c) (post : List Char) :
    scanName ((' ' :: name ++ [' ']) ++
        '|' :: ((' ' :: dflt ++ [' ']) ++ '}' :: '}' :: post)) =
      some (' ' :: name ++ [' '], some (' ' :: dflt ++ [' ']), post) := by
  rw [scanName_append_plain (plain_wrap_N hn), scanName_pipe,
    scanDef_append_plain (plain_wrap_D hd), scanDef_close]
  simp

theorem resolveSpan_bound {tbl : List (List Char × List Char)}
    {n name v : List Char} (htr : trimWS n = name) (hne : name ≠ [])
    (hl : lookupVar tbl name = some v) (dft : Option (List Char)) :
    resolveSpan tbl n dft = (v, []) := by
  unfold resolveSpan
  rw [htr, if_neg hne, hl]

theorem resolveSpan_default {tbl : List (List Char × List Char)}
    {n name : List Char} (htr : trimWS n = name) (hne : name ≠ [])
    (hl : lookupVar tbl name = none) (dv : List Char) :
    resolveSpan tbl n (some dv) = (trimWS dv, []) := by
  unfold resolveSpan
  rw [htr, if_neg hne, hl]

theorem resolveSpan_missing {tbl : List (List Char × List Char)}
    {n name : List Char} (htr : trimWS n = name) (hne : name ≠ [])
    (hl : lookupVar tbl name = none) :
    resolveSpan tbl n none = (failMarker name, [name]) := by
  unfold resolveSpan
  rw [htr, if_neg hne, hl]

theorem heapGet_append_new (h : JHeap) (o : JObj) :
    heapGet (h ++ [o]) (List.length h) = o := by
  induction h with
  | nil => rfl
  | cons x t ih =>
    show List.getD (x :: (t ++ [o])) (t.length + 1) [] = o
    rw [List.getD_cons_succ]
    exact ih

theorem heapGet_append_old {r : Nat} : ∀ h : JHeap, r < List.length h →
    ∀ o : JObj, heapGet (h ++ [o]) r = heapGet h r := by
  induction r with
  | zero =>
    intro h hr o
    cases h with
    | nil => exact absurd hr (by simp)
    | cons x t => rfl
  | succ r ih =>
    intro h hr o
    cases h with
    | nil => exact absurd hr (by simp)
    | cons x t =>
      show List.getD (x :: (t ++ [o])) (r + 1) [] = List.getD (x :: t) (r + 1) []
      rw [List.getD_cons_succ, List.getD_cons_succ]
      exact ih t (by simp only [List.length_cons] at hr; omega) o

theorem heapGet_set_ne {r₁ r : Nat} (hne : r₁ ≠ r) :
    ∀ (h : JHeap) (o : JObj), heapGet (heapSet h r₁ o) r = heapGet h r := by
  induction r₁ generalizing r with
  | zero =>
    intro h o
    cases h with
    | nil => rfl
    | cons x t =>
      cases r with
      | zero => exact absurd rfl hne
      | succ r => rfl
  | succ r₁ ih =>
    intro h o
    cases h with
    | nil => rfl
    | cons x t =>
      cases r with
      | zero => rfl
      | succ r =>
        show List.getD (x :: t.set r₁ o) (r + 1) [] = List.getD (x :: t) (r + 1) []
        rw [List.getD_cons_succ, List.getD_cons_succ]
        exact ih (fun hh => hne (by rw [hh])) t o

/-! ### Claims -/

/-- C1: for every placeholder span and binding table, resolution follows
the priority: a binding for the trimmed name wins (also over an inline
default for the same name); otherwise a provided default is substituted
(decoded and trimmed); otherwise the failure marker is substituted. -/
theorem C1_resolution_priority (name dflt : List Char)
    (tbl : List (List Char × List Char)) (hname : goodName name)
    (hd : ∀ c ∈ dflt, plainD c) (hdt : trimWS dflt = dflt) :
    (∀ v, lookupVar tbl name = some v →
        (renderL tbl (mkSpanDef name dflt [])).1 = v)
    ∧ (lookupVar tbl name = none →
        (renderL tbl (mkSpanDef name dflt [])).1 = dflt)
    ∧ (lookupVar tbl name = none →
        (renderL tbl (mkSpanNoDef name [])).1 = failMarker name) := by
  obtain ⟨hne, hchars⟩ := hname
  have hn : ∀ c ∈ name, plainN c := fun c hc => (hchars c hc).1
  have htr : trimWS (' ' :: name ++ [' ']) = name :=
    trimWS_wrap_core fun c hc => (hchars c hc).2
  refine ⟨fun v hv => ?_, fun hno => ?_, fun hno => ?_⟩
  · simp only [mkSpanDef]
    rw [renderL_open_some (scanName_span2 hn hd []) tbl,
      resolveSpan_bound htr hne hv]
    simp [renderL_nil]
  · simp only [mkSpanDef]
    rw [renderL_open_some (scanName_span2 hn hd []) tbl,
      resolveSpan_default htr hne hno, trimWS_wrap_any, hdt]
    simp [renderL_nil]
  · simp only [mkSpanNoDef]
    rw [renderL_open_some (scanName_span1 hn []) tbl,
      resolveSpan_missing htr hne hno]
    simp [renderL_nil]

/-- Witness for C1 at the documented test inputs (`{{ title | Default
Title }}` against a table binding `title` and against the empty table,
and `{{ title }}` against the empty table). -/
theorem C1_resolution_priority_witness :
    (renderL [("title".toList, "Config Title".toList)]
        (mkSpanDef "title".toList "Default Title".toList [])).1 =
      "Config Title".toList
    ∧ (renderL [] (mkSpanDef "title".toList "Default Title".toList [])).1 =
      "Default Title".toList
    ∧ (renderL [] (mkSpanNoDef "title".toList [])).1 =
      failMarker "title".toList := by
  have h₁ := C1_resolution_priority "title".toList "Default Title".toList
    [("title".toList, "Config Title".toList)] (by decide) (by decide) (by decide)
  have h₂ := C1_resolution_priority "title".toList "Default Title".toList []
    (by decide) (by decide) (by decide)
  exact ⟨h₁.1 "Config Title".toList (by decide), h₂.2.1 (by decide),
    h₂.2.2 (by decide)⟩

/-- C3: a span whose trimmed name has neither a binding nor a default
renders exactly the failure marker fragment, records exactly one warning
for that span, and rendering of the rest of the document continues. -/
theorem C3_unresolved_marker_warning (name post : List Char)
    (tbl : List (List Char × List Char)) (hname : goodName name)
    (hno : lookupVar tbl name = none) :
    renderL tbl (mkSpanNoDef name post) =
      (failMarker name ++ (renderL tbl post).1,
        name :: (renderL tbl post).2) := by
  obtain ⟨hne, hchars⟩ := hname
  have hn : ∀ c ∈ name, plainN c := fun c hc => (hchars c hc).1
  have htr : trimWS (' ' :: name ++ [' ']) = name :=
    trimWS_wrap_core fun c hc => (hchars c hc).2
  simp only [mkSpanNoDef]
  rw [renderL_open_some (scanName_span1 hn post) tbl,
    resolveSpan_missing htr hne hno]
  rfl

/-- Witness for C3 at the documented test input `{{ missing }}` with a
trailing continuation. -/
theorem C3_unresolved_marker_warning_witness :
    renderL [] (mkSpanNoDef "missing".toList "!".toList) =
      (failMarker "missing".toList ++ "!".toList, ["missing".toList]) := by
  rw [C3_unresolved_marker_warning "missing".toList "!".toList []
    (by decide) (by decide)]
  decide

/-- C4: for an unbound name with a default, the substituted text is the
default with exactly the one leading and the one trailing incidental
whitespace run stripped, interior whitespace (including newlines and
indentation) preserved verbatim. -/
theorem C4_default_whitespace (name lead core trail : List Char)
    (tbl : List (List Char × List Char)) (hname : goodName name)
    (hno : lookupVar tbl name = none)
    (hlead : ∀ c ∈ lead, isWS c = true) (htrail : ∀ c ∈ trail, isWS c = true)
    (hcore : ∀ c ∈ core, plainD c) (hct : trimWS core = core) :
    (renderL tbl (mkSpanDef name (lead ++ core ++ trail) [])).1 = core := by
  obtain ⟨hne, hchars⟩ := hname
  have hn : ∀ c ∈ name, plainN c := fun c hc => (hchars c hc).1
  have htr : trimWS (' ' :: name ++ [' ']) = name :=
    trimWS_wrap_core fun c hc => (hchars c hc).2
  have hdall : ∀ c ∈ lead ++ core ++ trail, plainD c := by
    intro c hc
    rcases List.mem_append.mp hc with hc₁ | hc₂
    · rcases List.mem_append.mp hc₁ with h₁ | h₁
      · exact isWS_plainD (hlead c h₁)
      · exact hcore c h₁
    · exact isWS_plainD (htrail c hc₂)
  simp only [mkSpanDef]
  rw [renderL_open_some (scanName_span2 hn hdall []) tbl,
    resolveSpan_default htr hne hno, trimWS_wrap_any,
    trimWS_wrap hlead htrail, hct]
  simp [renderL_nil]

/-- Witness for C4 at the documented multi-line default test. -/
theorem C4_default_whitespace_witness :
    (renderL [] (mkSpanDef "content".toList
        (" ".toList ++ "Line 1\nLine 2\n  Indented line".toList ++ " ".toList)
        [])).1 =
      "Line 1\nLine 2\n  Indented line".toList :=
  C4_default_whitespace "content".toList " ".toList
    "Line 1\nLine 2\n  Indented line".toList " ".toList [] (by decide)
    (by decide) (by decide) (by decide) (by decide) (by decide)

/-- C5: the interior splits at the first separator bar; no bar means no
default, which is distinct from an explicit empty default: `{{ name | }}`
with `name` unbound resolves to the empty string while `{{ name }}`
resolves to the failure marker; a bar inside the default text is literal
(only the first bar splits). -/
theorem C5_first_pipe_empty_default (name d₁ d₂ : List Char)
    (tbl : List (List Char × List Char)) (hname : goodName name)
    (hno : lookupVar tbl name = none)
    (hd₁ : ∀ c ∈ d₁, plainD c) (hd₂ : ∀ c ∈ d₂, plainD c)
    (ht : trimWS (d₁ ++ '|' :: d₂) = d₁ ++ '|' :: d₂) :
    (renderL tbl (mkSpanDef name [] [])).1 = []
    ∧ (renderL tbl (mkSpanNoDef name [])).1 = failMarker name
    ∧ (renderL tbl (mkSpanDef name (d₁ ++ '|' :: d₂) [])).1 = d₁ ++ '|' :: d₂ := by
  obtain ⟨hne, hchars⟩ := hname
  have hn : ∀ c ∈ name, plainN c := fun c hc => (hchars c hc).1
  have htr : trimWS (' ' :: name ++ [' ']) = name :=
    trimWS_wrap_core fun c hc => (hchars c hc).2
  have hdall : ∀ c ∈ d₁ ++ '|' :: d₂, plainD c := by
    intro c hc
    rcases List.mem_append.mp hc with h₁ | h₁
    · exact hd₁ c h₁
    · rcases List.mem_cons.mp h₁ with rfl | h₂
      · exact ⟨by decide, by decide⟩
      · exact hd₂ c h₂
  refine ⟨?_, ?_, ?_⟩
  · simp only [mkSpanDef]
    rw [renderL_open_some
        (scanName_span2 hn (fun c hc => absurd hc (List.not_mem_nil c)) []) tbl,
      resolveSpan_default htr hne hno, trimWS_wrap_any]
    simp [renderL_nil, trimWS, trimL, trimR]
  · simp only [mkSpanNoDef]
    rw [renderL_open_some (scanName_span1 hn []) tbl,
      resolveSpan_missing htr hne hno]
    simp [renderL_nil]
  · simp only [mkSpanDef]
    rw [renderL_open_some (scanName_span2 hn hdall []) tbl,
      resolveSpan_default htr hne hno, trimWS_wrap_any, ht]
    simp [renderL_nil]

/-- Witness for C5 at the documented test input `{{ empty | }}` (and the
corresponding marker and literal-bar cases). -/
theorem C5_first_pipe_empty_default_witness :
    (renderL [] (mkSpanDef "empty".toList [] [])).1 = []
    ∧ (renderL [] (mkSpanNoDef "empty".toList [])).1 = failMarker "empty".toList
    ∧ (renderL [] (mkSpanDef "empty".toList
        ("a".toList ++ '|' :: "b".toList) [])).1 =
      "a".toList ++ '|' :: "b".toList :=
  C5_first_pipe_empty_default "empty".toList "a".toList "b".toList []
    (by decide) (by decide) (by decide) (by decide) (by decide)

/-- C6: an open delimiter with no later valid close delimiter is inert:
it and everything following it are emitted as literal text, unchanged —
never an error and never a substitution. -/
theorem C6_unterminated_literal (pre cs : List Char)
    (tbl : List (List Char × List Char)) (hpre : ∀ c ∈ pre, c ≠ '{')
    (hcs : hasClose cs = false) :
    renderL tbl (pre ++ '{' :: '{' :: cs) = (pre ++ '{' :: '{' :: cs, []) := by
  rw [renderL_plainPre hpre,
    renderL_open_none (scanName_none_of_noClose hcs)]

/-- Witness for C6: an unterminated `{{ name` tail after plain text. -/
theorem C6_unterminated_literal_witness :
    renderL [("name".toList, "Test".toList)]
        ("text ".toList ++ '{' :: '{' :: " name".toList) =
      ("text ".toList ++ '{' :: '{' :: " name".toList, []) :=
  C6_unterminated_literal "text ".toList " name".toList
    [("name".toList, "Test".toList)] (by decide) (by decide)

/-- C7: the first valid close delimiter after an open delimiter
terminates the span and scanning resumes immediately after it; in
particular the documented `{{ code | function() { return; } }} end`
input renders to `function() { return; } end` with empty bindings. -/
theorem C7_first_close_terminates (mid post : List Char)
    (tbl : List (List Char × List Char)) (hmid : hasClose mid = false)
    (ht : tailOk mid = true) :
    (∃ (n : List Char) (dft : Option (List Char)),
      scanName (mid ++ '}' :: '}' :: post) = some (n, dft, post)
      ∧ renderL tbl ('{' :: '{' :: (mid ++ '}' :: '}' :: post)) =
          ((resolveSpan tbl n dft).1 ++ (renderL tbl post).1,
            (resolveSpan tbl n dft).2 ++ (renderL tbl post).2))
    ∧ (renderL []
        ('{' :: '{' :: " code | function() ".toList ++ '{' ::
          " return; ".toList ++ '}' :: ' ' :: '}' :: '}' :: " end".toList)).1 =
      "function() ".toList ++ '{' :: " return; ".toList ++ '}' :: " end".toList := by
  constructor
  · obtain ⟨n, dft, hdd⟩ := scanName_extend mid hmid ht
    exact ⟨n, dft, hdd post, renderL_open_some (hdd post) tbl⟩
  · decide

/-- Witness for C7 at a concrete span interior and continuation. -/
theorem C7_first_close_terminates_witness :
    (∃ (n : List Char) (dft : Option (List Char)),
      scanName (" x ".toList ++ '}' :: '}' :: "!".toList) =
          some (n, dft, "!".toList)
      ∧ renderL [] ('{' :: '{' :: (" x ".toList ++ '}' :: '}' :: "!".toList)) =
          ((resolveSpan [] n dft).1 ++ (renderL [] "!".toList).1,
            (resolveSpan [] n dft).2 ++ (renderL [] "!".toList).2))
    ∧ (renderL []
        ('{' :: '{' :: " code | function() ".toList ++ '{' ::
          " return; ".toList ++ '}' :: ' ' :: '}' :: '}' :: " end".toList)).1 =
      "function() ".toList ++ '{' :: " return; ".toList ++ '}' :: " end".toList :=
  C7_first_close_terminates " x ".toList "!".toList [] (by decide) (by decide)

/-- C8: rendering restricted to text containing no placeholder span is
the identity, for every binding table, with no warnings recorded. -/
theorem C8_identity_no_spans (cs : List Char)
    (tbl : List (List Char × List Char)) (h : spanFree cs = true) :
    renderL tbl cs = (cs, []) :=
  renderL_spanFree cs h tbl

/-- Witness for C8 on concrete placeholder-free text and a nonempty
table. -/
theorem C8_identity_no_spans_witness :
    renderL [("a".toList, "b".toList)] "plain text, no placeholders".toList =
      ("plain text, no placeholders".toList, []) :=
  C8_identity_no_spans "plain text, no placeholders".toList
    [("a".toList, "b".toList)] (by decide)

/-- C9: the engine is pure in the binding table: the output depends on
the table only through its lookups (so a render call observes exactly the
table handed to that call and cannot mutate it or cache a previous one),
and the documented configuration-update test holds: the same text
rendered against the initial and the updated table yields the respective
bound values. -/
theorem C9_table_snapshot :
    (∀ b₁ b₂ : List (List Char × List Char),
      (∀ k, lookupVar b₁ k = lookupVar b₂ k) →
      ∀ cs, renderL b₁ cs = renderL b₂ cs)
    ∧ (renderL [("test".toList, "initial".toList)]
        ('{' :: '{' :: " test ".toList ++ ['}', '}'])).1 = "initial".toList
    ∧ (renderL [("test".toList, "updated".toList)]
        ('{' :: '{' :: " test ".toList ++ ['}', '}'])).1 = "updated".toList :=
  ⟨fun _ _ h cs => renderL_ext h cs, by decide, by decide⟩

/-- Witness for C9: two concretely different tables with identical lookup
behaviour render identically. -/
theorem C9_table_snapshot_witness :
    renderL [("a".toList, "1".toList), ("a".toList, "2".toList)]
        ('{' :: '{' :: " a ".toList ++ ['}', '}']) =
      renderL [("a".toList, "1".toList)]
        ('{' :: '{' :: " a ".toList ++ ['}', '}']) :=
  C9_table_snapshot.1 _ _
    (fun k => by
      by_cases h : "a".toList = k
      · subst h; decide
      · have h₁ : (['a'] : List Char) ≠ k := h
        simp [lookupVar, h₁])
    ('{' :: '{' :: " a ".toList ++ ['}', '}'])

/-- C2 counterexample: escape decoding is not uniform.  On the documented
regression input `{{ code | obj}\} more content }} end` the unescaped
closing brace immediately followed by the escaped closing brace decodes
to a single brace (`obj}`), not to the two braces (`obj}}`) that a
uniform "each escape decodes to exactly that one literal brace" rule
would produce for the literal `}` plus the escape. -/
theorem C2_escape_uniform_counterexample :
    (renderL []
        ('{' :: '{' :: " code | obj".toList ++ '}' :: '\\' :: '}' ::
          " more content ".toList ++ '}' :: '}' :: " end".toList)).1 =
      "obj".toList ++ '}' :: " more content end".toList
    ∧ (renderL []
        ('{' :: '{' :: " code | obj".toList ++ '}' :: '\\' :: '}' ::
          " more content ".toList ++ '}' :: '}' :: " end".toList)).1 ≠
      "obj".toList ++ '}' :: '}' :: " more content end".toList := by
  exact ⟨by decide, by decide⟩

/-- C2 amended: an escape sequence decodes to exactly one literal brace
and is never counted as either half of a recognized close pair — a pair
whose first brace is escaped does not close and decodes to two braces —
except for the one documented non-uniform case: an unescaped closing
brace immediately followed by an escaped closing brace does not close and
decodes to a single closing brace. -/
theorem C2_escape_decoding_amended (name a b : List Char)
    (tbl : List (List Char × List Char)) (hname : goodName name)
    (hno : lookupVar tbl name = none)
    (ha : ∀ c ∈ a, plainD c ∧ isWS c = false)
    (hb : ∀ c ∈ b, plainD c ∧ isWS c = false) :
    (renderL tbl (mkSpanDef name (a ++ '\\' :: '{' :: b) [])).1 = a ++ '{' :: b
    ∧ (renderL tbl (mkSpanDef name (a ++ '\\' :: '}' :: b) [])).1 = a ++ '}' :: b
    ∧ (renderL tbl (mkSpanDef name (a ++ '\\' :: '}' :: '}' :: b) [])).1 =
        a ++ '}' :: '}' :: b
    ∧ (renderL tbl (mkSpanDef name (a ++ '}' :: '\\' :: '}' :: b) [])).1 =
        a ++ '}' :: b := by
  obtain ⟨hne, hchars⟩ := hname
  have hn : ∀ c ∈ name, plainN c := fun c hc => (hchars c hc).1
  have htr : trimWS (' ' :: name ++ [' ']) = name :=
    trimWS_wrap_core fun c hc => (hchars c hc).2
  have hA : ∀ c ∈ a, plainD c := fun c hc => (ha c hc).1
  have hB : ∀ c ∈ b, plainD c := fun c hc => (hb c hc).1
  have hAw : ∀ c ∈ a, isWS c = false := fun c hc => (ha c hc).2
  have hBw : ∀ c ∈ b, isWS c = false := fun c hc => (hb c hc).2
  have hwsOf : ∀ m : List Char, (∀ c ∈ m, isWS c = false) →
      ∀ c ∈ a ++ m ++ b, isWS c = false := by
    intro m hm c hc
    rcases List.mem_append.mp hc with h₁ | h₁
    · rcases List.mem_append.mp h₁ with h₂ | h₂
      · exact hAw c h₂
      · exact hm c h₂
    · exact hBw c h₁
  refine ⟨?_, ?_, ?_, ?_⟩
  · have hscan : scanName ((' ' :: name ++ [' ']) ++
        '|' :: ((' ' :: (a ++ '\\' :: '{' :: b) ++ [' ']) ++
          '}' :: '}' :: ([] : List Char))) =
        some (' ' :: name ++ [' '], some (' ' :: (a ++ '{' :: b) ++ [' ']), []) := by
      rw [scanName_append_plain (plain_wrap_N hn), scanName_pipe]
      simp only [List.cons_append, List.nil_append, List.append_assoc]
      rw [scanDef_cons_plain (by decide) (by decide), scanDef_append_plain hA,
        scanDef_escape (Or.inl rfl), scanDef_append_plain hB,
        scanDef_cons_plain (by decide) (by decide), scanDef_close]
      simp
    simp only [mkSpanDef]
    rw [renderL_open_some hscan tbl, resolveSpan_default htr hne hno,
      trimWS_wrap_core (by simpa using hwsOf ['{'] (by decide))]
    simp [renderL_nil]
  · have hscan : scanName ((' ' :: name ++ [' ']) ++
        '|' :: ((' ' :: (a ++ '\\' :: '}' :: b) ++ [' ']) ++
          '}' :: '}' :: ([] : List Char))) =
        some (' ' :: name ++ [' '], some (' ' :: (a ++ '}' :: b) ++ [' ']), []) := by
      rw [scanName_append_plain (plain_wrap_N hn), scanName_pipe]
      simp only [List.cons_append, List.nil_append, List.append_assoc]
      rw [scanDef_cons_plain (by decide) (by decide), scanDef_append_plain hA,
        scanDef_escape (Or.inr rfl), scanDef_append_plain hB,
        scanDef_cons_plain (by decide) (by decide), scanDef_close]
      simp
    simp only [mkSpanDef]
    rw [renderL_open_some hscan tbl, resolveSpan_default htr hne hno,
      trimWS_wrap_core (by simpa using hwsOf ['}'] (by decide))]
    simp [renderL_nil]
  · have hscan : scanName ((' ' :: name ++ [' ']) ++
        '|' :: ((' ' :: (a ++ '\\' :: '}' :: '}' :: b) ++ [' ']) ++
          '}' :: '}' :: ([] : List Char))) =
        some (' ' :: name ++ [' '],
          some (' ' :: (a ++ '}' :: '}' :: b) ++ [' ']), []) := by
      rw [scanName_append_plain (plain_wrap_N hn), scanName_pipe]
      simp only [List.cons_append, List.nil_append, List.append_assoc]
      rw [scanDef_cons_plain (by decide) (by decide), scanDef_append_plain hA,
        scanDef_escape (Or.inr rfl)]
      cases b with
      | nil =>
        simp only [List.nil_append]
        rw [scanDef_cons_safe (by decide) (by decide) (by decide),
          scanDef_cons_plain (by decide) (by decide), scanDef_close]
        simp
      | cons b₀ bs =>
        have hb₀ := hB b₀ (List.mem_cons_self b₀ bs)
        have hbs : ∀ c ∈ bs, plainD c :=
          fun c hc => hB c (List.mem_cons_of_mem b₀ hc)
        simp only [List.cons_append]
        rw [scanDef_cons_safe (fun hh => absurd hh.1 (by decide))
            (fun hh => hb₀.2 hh.2) (fun hh => hb₀.1 hh.2),
          scanDef_cons_plain hb₀.1 hb₀.2, scanDef_append_plain hbs,
          scanDef_cons_plain (by decide) (by decide), scanDef_close]
        simp
    simp only [mkSpanDef]
    rw [renderL_open_some hscan tbl, resolveSpan_default htr hne hno,
      trimWS_wrap_core (by simpa using hwsOf ['}', '}'] (by decide))]
    simp [renderL_nil]
  · have hscan : scanName ((' ' :: name ++ [' ']) ++
        '|' :: ((' ' :: (a ++ '}' :: '\\' :: '}' :: b) ++ [' ']) ++
          '}' :: '}' :: ([] : List Char))) =
        some (' ' :: name ++ [' '], some (' ' :: (a ++ '}' :: b) ++ [' ']), []) := by
      rw [scanName_append_plain (plain_wrap_N hn), scanName_pipe]
      simp only [List.cons_append, List.nil_append, List.append_assoc]
      rw [scanDef_cons_plain (by decide) (by decide), scanDef_append_plain hA,
        scanDef_bracePair, scanDef_append_plain hB,
        scanDef_cons_plain (by decide) (by decide), scanDef_close]
      simp
    simp only [mkSpanDef]
    rw [renderL_open_some hscan tbl, resolveSpan_default htr hne hno,
      trimWS_wrap_core (by simpa using hwsOf ['}'] (by decide))]
    simp [renderL_nil]

/-- Witness for the amended C2 at concrete segments. -/
theorem C2_escape_decoding_amended_witness :
    (renderL [] (mkSpanDef "code".toList
        ("obj".toList ++ '\\' :: '{' :: "x".toList) [])).1 =
      "obj".toList ++ '{' :: "x".toList
    ∧ (renderL [] (mkSpanDef "code".toList
        ("obj".toList ++ '\\' :: '}' :: "x".toList) [])).1 =
      "obj".toList ++ '}' :: "x".toList
    ∧ (renderL [] (mkSpanDef "code".toList
        ("obj".toList ++ '\\' :: '}' :: '}' :: "x".toList) [])).1 =
      "obj".toList ++ '}' :: '}' :: "x".toList
    ∧ (renderL [] (mkSpanDef "code".toList
        ("obj".toList ++ '}' :: '\\' :: '}' :: "x".toList) [])).1 =
      "obj".toList ++ '}' :: "x".toList :=
  C2_escape_decoding_amended "code".toList "obj".toList "x".toList []
    (by decide) (by decide) (by decide) (by decide)

/-- C10: `ConfigReader` never aliases its internal configuration to
callers: the constructor copies the supplied defaults object into a
freshly allocated config object and `getAll` returns a freshly allocated
shallow copy, so mutating the defaults object after construction, or the
object returned by `getAll`, leaves `get(key)` unchanged for every key. -/
theorem C10_configReader_no_alias (h : JHeap) (d : Nat)
    (hd : d < List.length h) (o₁ o₂ : JObj) (k : String) :
    (crGetAll (mkConfigReader h d).1 (mkConfigReader h d).2).2 ≠
        (mkConfigReader h d).2.configRef
    ∧ crGet (heapSet (mkConfigReader h d).1 d o₁) (mkConfigReader h d).2 k =
        crGet (mkConfigReader h d).1 (mkConfigReader h d).2 k
    ∧ crGet
        (heapSet (crGetAll (mkConfigReader h d).1 (mkConfigReader h d).2).1
          (crGetAll (mkConfigReader h d).1 (mkConfigReader h d).2).2 o₂)
        (mkConfigReader h d).2 k =
      crGet (mkConfigReader h d).1 (mkConfigReader h d).2 k := by
  refine ⟨?_, ?_, ?_⟩
  · simp only [mkConfigReader, crGetAll]
    simp
  · simp only [mkConfigReader, crGet, crGetAll]
    rw [heapGet_set_ne (Nat.ne_of_lt hd)]
  · simp only [mkConfigReader, crGet, crGetAll]
    rw [heapGet_set_ne (by simp), heapGet_append_old _ (by simp) _]

/-- Witness for C10 on a one-object heap. -/
theorem C10_configReader_no_alias_witness :
    (crGetAll (mkConfigReader [[("a", "1")]] 0).1
        (mkConfigReader [[("a", "1")]] 0).2).2 ≠
      (mkConfigReader [[("a", "1")]] 0).2.configRef
    ∧ crGet (heapSet (mkConfigReader [[("a", "1")]] 0).1 0 [("x", "9")])
        (mkConfigReader [[("a", "1")]] 0).2 "a" =
      crGet (mkConfigReader [[("a", "1")]] 0).1
        (mkConfigReader [[("a", "1")]] 0).2 "a"
    ∧ crGet
        (heapSet
          (crGetAll (mkConfigReader [[("a", "1")]] 0).1
            (mkConfigReader [[("a", "1")]] 0).2).1
          (crGetAll (mkConfigReader [[("a", "1")]] 0).1
            (mkConfigReader [[("a", "1")]] 0).2).2 [])
        (mkConfigReader [[("a", "1")]] 0).2 "a" =
      crGet (mkConfigReader [[("a", "1")]] 0).1
        (mkConfigReader [[("a", "1")]] 0).2 "a" :=
  C10_configReader_no_alias [[("a", "1")]] 0 (by decide) [("x", "9")] [] "a"

end MdHandler
